import Mathlib

/-!
Verification of the data pipeline of `src/app.py` (digital-transformation-index
analysis app).  The embedding models the pandas operations used by the app:
`load_data` (schema check, dropna, numeric coercion of year and index,
drop_duplicates, groupby-mean aggregation), the enterprise/industry fuzzy
matchers (`str.contains` masks combined with `|=`, followed by
`sort_values`), the year-axis alignment (`set_index("年份").reindex(...)`),
and the multi-industry comparison (`isin` filter, `groupby("年份").mean()`).

Missing values (pandas `NaN`) are modelled as `none` of an `Option` type;
numeric index values are modelled as `ℚ`.
-/

namespace App

/-- First-occurrence deduplication (auxiliary recursion carrying the set of
elements already emitted).  Models pandas `drop_duplicates()` which keeps the
first occurrence of each duplicated row. -/
def dedupFirstAux {α : Type} [DecidableEq α] (seen : List α) : List α → List α
  | [] => []
  | x :: xs => if x ∈ seen then dedupFirstAux seen xs else x :: dedupFirstAux (x :: seen) xs

/-- First-occurrence deduplication, modelling `DataFrame.drop_duplicates()`. -/
def dedupFirst {α : Type} [DecidableEq α] (l : List α) : List α :=
  dedupFirstAux [] l

/-- Value of a decimal digit character. -/
def digitVal? (c : Char) : Option ℕ :=
  if c.isDigit then some (c.toNat - 48) else none

/-- Parse a run of decimal digits to a natural number (auxiliary
accumulator recursion). -/
def parseDigitsAux : List Char → ℕ → Option ℕ
  | [], acc => some acc
  | c :: cs, acc =>
    match digitVal? c with
    | some d => parseDigitsAux cs (acc * 10 + d)
    | none => none

/-- Parse a nonempty all-digit character list. -/
def parseDigits (cs : List Char) : Option ℕ :=
  if cs.isEmpty then none else parseDigitsAux cs 0

/-- Parse an unsigned decimal literal (`123` or `123.45`). -/
def parseUnsigned? (cs : List Char) : Option ℚ :=
  match cs.dropWhile (fun c => c ≠ '.') with
  | [] => (parseDigits (cs.takeWhile (fun c => c ≠ '.'))).map (fun n => (n : ℚ))
  | _ :: fracPart =>
    match parseDigits (cs.takeWhile (fun c => c ≠ '.')), parseDigits fracPart with
    | some n, some f => some ((n : ℚ) + (f : ℚ) / ((10 : ℚ) ^ fracPart.length))
    | _, _ => none

/-- Model of `pd.to_numeric(value, errors="coerce")` applied to one cell: a
signed decimal literal parses to a rational, anything else coerces to the
missing value `none` (pandas `NaN`).  Regex-free literal model of the pandas
numeric parser, sufficient for the coercion policy verified here. -/
def parseNumQ (s : String) : Option ℚ :=
  match s.data with
  | [] => none
  | '-' :: cs => (parseUnsigned? cs).map (fun q => -q)
  | cs => parseUnsigned? cs

/-- Truncation toward zero, modelling `astype(int)` on a parsed numeric
value (numpy/Python integer conversion truncates toward zero). -/
def truncInt (q : ℚ) : ℤ :=
  q.num.tdiv q.den

/-- A raw spreadsheet row: a mapping from column name to the cell's raw text,
`none` meaning an empty (null) cell. -/
def RawRow : Type :=
  String → Option String

/-- Build a raw row from the six required cells (all other columns null);
used to write concrete raw tables. -/
def mkRaw (c n y idx ic iname : Option String) : RawRow := fun col =>
  if col = "股票代码" then c
  else if col = "企业名称" then n
  else if col = "年份" then y
  else if col = "数字化转型综合指数" then idx
  else if col = "行业代码" then ic
  else if col = "行业名称" then iname
  else none

/-- The `required_columns` list of `load_data`. -/
def required_columns : List String :=
  ["股票代码", "企业名称", "年份", "数字化转型综合指数", "行业代码", "行业名称"]

/-- A cleaned row (canonical internal names after the rename step):
`index_value = none` is the missing sentinel (pandas `NaN`) left by a failed
numeric coercion of the index column. -/
structure CleanRow where
  entity_code : String
  entity_name : String
  year : ℤ
  index_value : Option ℚ
  industry_code : String
  industry_name : String
deriving DecidableEq

/-- Per-row cleaning policy of `load_data`: the row survives the
`dropna(subset=required_columns)` step only if all six required cells are
non-null; the year must then coerce numerically (`pd.to_numeric` +
`astype(int)`), otherwise the row is dropped; the index is coerced with
`errors="coerce"`, a failure leaving the missing sentinel instead of
dropping the row. -/
def cleanRow? (r : RawRow) : Option CleanRow :=
  match r "股票代码", r "企业名称", r "年份", r "数字化转型综合指数", r "行业代码", r "行业名称" with
  | some c, some n, some y, some idx, some ic, some iname =>
    match parseNumQ y with
    | some yq => some ⟨c, n, truncInt yq, parseNumQ idx, ic, iname⟩
    | none => none
  | _, _, _, _, _, _ => none

/-- Row pipeline of `load_data` after the schema check: dropna, year
coercion (dropping failures), index coercion (keeping failures as the
missing sentinel), then `drop_duplicates()`. -/
def clean_rows (rows : List RawRow) : List CleanRow :=
  dedupFirst (rows.filterMap cleanRow?)

/-- The `missing_cols` list of `load_data`: every required column absent
from the raw table's columns, in `required_columns` order. -/
def missing_cols (cols : List String) : List String :=
  required_columns.filter (fun c => decide (c ∉ cols))

/-- The cleaning stage of `load_data`: schema check (failing with the full
list of missing required columns) followed by the row pipeline. -/
def clean (cols : List String) (rows : List RawRow) : Except (List String) (List CleanRow) :=
  if missing_cols cols = [] then Except.ok (clean_rows rows) else Except.error (missing_cols cols)

/-- One row of the derived industry-average table (`industry_avg` in
`load_data`): `avg_index = none` is the missing sentinel (pandas `NaN`). -/
structure IndustryAvgRow where
  industry_code : String
  industry_name : String
  year : ℤ
  avg_index : Option ℚ
deriving DecidableEq

/-- Group key of a cleaned row for the aggregation
(`groupby(["行业代码", "行业名称", "年份"])`). -/
def groupKey (r : CleanRow) : String × String × ℤ :=
  (r.industry_code, r.industry_name, r.year)

/-- The distinct group keys present in a cleaned table (pandas `groupby`
emits one output row per distinct key). -/
def groupKeys (rows : List CleanRow) : List (String × String × ℤ) :=
  dedupFirst (rows.map groupKey)

/-- Index-value column of one group. -/
def groupVals (rows : List CleanRow) (k : String × String × ℤ) : List (Option ℚ) :=
  (rows.filter (fun r => decide (groupKey r = k))).map (fun r => r.index_value)

/-- Mean of a numeric column with missing values: pandas `mean()` skips
`NaN` entries; a group with only `NaN` values yields `NaN` (here `none`),
never an exception and never `0`. -/
def meanSkipNone (vs : List (Option ℚ)) : Option ℚ :=
  if vs.filterMap id = [] then none
  else some ((vs.filterMap id).sum / (vs.filterMap id).length)

/-- The aggregate row built for one group key. -/
def aggRow (rows : List CleanRow) (k : String × String × ℤ) : IndustryAvgRow :=
  ⟨k.1, k.2.1, k.2.2, meanSkipNone (groupVals rows k)⟩

/-- The aggregation step of `load_data`:
`df_clean.groupby(["行业代码", "行业名称", "年份"])["数字化转型指数"].mean()`. -/
def aggregate (rows : List CleanRow) : List IndustryAvgRow :=
  (groupKeys rows).map (aggRow rows)

/-- Key of an aggregate row. -/
def akey (a : IndustryAvgRow) : String × String × ℤ :=
  (a.industry_code, a.industry_name, a.year)

/-- ASCII lowercase of one character, modelling the `case=False` flag of
`str.contains`. -/
def lowerChar (c : Char) : Char :=
  if 'A' ≤ c ∧ c ≤ 'Z' then Char.ofNat (c.toNat + 32) else c

/-- Whether `pat` occurs at the start of `hay` (character lists). -/
def startsWithChars : List Char → List Char → Bool
  | _, [] => true
  | [], _ :: _ => false
  | h :: hs, p :: ps => h == p && startsWithChars hs ps

/-- Substring containment on character lists. -/
def containsChars : List Char → List Char → Bool
  | [], pat => pat.isEmpty
  | h :: hs, pat => startsWithChars (h :: hs) pat || containsChars hs pat

/-- Model of one cell of `Series.str.contains(pat, case=False, na=False)`:
case-insensitive literal substring containment (the app passes the raw user
query; the model covers metacharacter-free patterns). -/
def containsCI (hay pat : String) : Bool :=
  containsChars (hay.data.map lowerChar) (pat.data.map lowerChar)

/-- The enterprise-query filter mask for one row: `filter_mask` starts all
false, `|=` with the code containment when the code query is non-empty, and
`|=` with the name containment when the name query is non-empty. -/
def entMatch (cq nq : String) (r : CleanRow) : Bool :=
  (decide (cq ≠ "") && containsCI r.entity_code cq) ||
  (decide (nq ≠ "") && containsCI r.entity_name nq)

/-- The industry-query filter mask for one row (same OR structure over the
industry code and industry name columns). -/
def indMatch (cq nq : String) (a : IndustryAvgRow) : Bool :=
  (decide (cq ≠ "") && containsCI a.industry_code cq) ||
  (decide (nq ≠ "") && containsCI a.industry_name nq)

/-- Code-point lexicographic strict order on character lists (the string
comparison underlying pandas `sort_values` on object columns). -/
def lexLtChars : List Char → List Char → Bool
  | [], [] => false
  | [], _ :: _ => true
  | _ :: _, [] => false
  | a :: as, b :: bs => decide (a < b) || (a == b && lexLtChars as bs)

/-- Strict lexicographic order on (name, year) sort keys. -/
def sortKeyLt (a b : String × ℤ) : Bool :=
  lexLtChars a.1.data b.1.data || (a.1 == b.1 && decide (a.2 < b.2))

/-- Stable insertion into a key-sorted list: the element is placed before
the first position whose key is not strictly smaller, so elements inserted
earlier stay before later elements with an equal key. -/
def insertSorted {α : Type} (key : α → String × ℤ) (x : α) : List α → List α
  | [] => [x]
  | y :: ys => if sortKeyLt (key y) (key x) then y :: insertSorted key x ys else x :: y :: ys

/-- Stable sort by a (name, year) key, modelling
`sort_values(["…名称", "年份"])` (pandas multi-column sorts use a stable
lexsort). -/
def sortByKey {α : Type} (key : α → String × ℤ) : List α → List α
  | [] => []
  | x :: xs => insertSorted key x (sortByKey key xs)

/-- Sort key used by the enterprise query: `(企业名称, 年份)`. -/
def entSortKey (r : CleanRow) : String × ℤ :=
  (r.entity_name, r.year)

/-- Sort key used by the industry query: `(行业名称, 年份)`. -/
def indSortKey (a : IndustryAvgRow) : String × ℤ :=
  (a.industry_name, a.year)

/-- Enterprise lookup: filter by the OR mask, then
`sort_values(["企业名称", "年份"])`. -/
def enterpriseQuery (tbl : List CleanRow) (cq nq : String) : List CleanRow :=
  sortByKey entSortKey (tbl.filter (entMatch cq nq))

/-- Industry lookup: filter by the OR mask, then
`sort_values(["行业名称", "年份"])`. -/
def industryQuery (tbl : List IndustryAvgRow) (cq nq : String) : List IndustryAvgRow :=
  sortByKey indSortKey (tbl.filter (indMatch cq nq))

/-- Year-axis alignment of a year-to-value series:
`series.set_index("年份").reindex(reference_years)`; a reference year absent
from the series yields the missing marker, a series year absent from the
reference axis is ignored. -/
def align (series : List (ℤ × ℚ)) (refYears : List ℤ) : List (Option ℚ) :=
  refYears.map (fun y => (series.find? (fun p => decide (p.1 = y))).map (fun p => p.2))

/-- Rows of the aggregate table whose industry name is in the selected-name
list: `industry_avg[industry_avg["行业名称"].isin(selected_ind_names)]`
(order of the original table kept, as with a boolean mask). -/
def compareRows (tbl : List IndustryAvgRow) (names : List String) : List IndustryAvgRow :=
  tbl.filter (fun r => names.contains r.industry_name)

/-- The multi-industry comparison data for a selection of (name, code)
pairs (as parsed from the multiselect labels): the `isin` filter uses only
the names, the extracted codes are ignored. -/
def compareData (tbl : List IndustryAvgRow) (sel : List (String × String)) :
    List IndustryAvgRow :=
  compareRows tbl (sel.map Prod.fst)

/-- The shared year axis of the comparison: `compare_data["年份"].unique()`
(first-occurrence order). -/
def allYears (cd : List IndustryAvgRow) : List ℤ :=
  dedupFirst (cd.map (fun r => r.year))

/-- Comparison rows of one year. -/
def rowsAtYear (cd : List IndustryAvgRow) (y : ℤ) : List IndustryAvgRow :=
  cd.filter (fun r => decide (r.year = y))

/-- The composite series `overall_avg`:
`compare_data.groupby("年份")["行业平均指数"].mean()` as (year, mean) pairs,
one per year present in the comparison data (`groupby` emits the keys
sorted, but the subsequent label-based `reindex` makes the emission order
irrelevant, so first-occurrence order is used here). -/
def overall_avg (cd : List IndustryAvgRow) : List (ℤ × Option ℚ) :=
  (allYears cd).map (fun y => (y, meanSkipNone ((rowsAtYear cd y).map (fun r => r.avg_index))))

/-- Label-based reindex of an optional-valued (year, value) series: a year
absent from the series gives the missing marker, and a stored missing value
stays missing. -/
def reindexOpt (pairs : List (ℤ × Option ℚ)) (ys : List ℤ) : List (Option ℚ) :=
  ys.map (fun y => ((pairs.find? (fun p => decide (p.1 = y))).map (fun p => p.2)).join)

/-- The aligned composite `overall_avg_aligned`:
`overall_avg.set_index("年份").reindex(all_years)`. -/
def overall_avg_aligned (cd : List IndustryAvgRow) : List (Option ℚ) :=
  reindexOpt (overall_avg cd) (allYears cd)

/-- One industry's (year, value) series inside the comparison data. -/
def indSeries (cd : List IndustryAvgRow) (name : String) : List (ℤ × Option ℚ) :=
  (cd.filter (fun r => r.industry_name == name)).map (fun r => (r.year, r.avg_index))

/-- One industry's series aligned to the shared year axis:
`compare_data[compare_data["行业名称"] == industry].set_index("年份").reindex(all_years)`. -/
def indAligned (cd : List IndustryAvgRow) (name : String) : List (Option ℚ) :=
  reindexOpt (indSeries cd name) (allYears cd)

/-- The aligned value of one industry at one reference year. -/
def alignedAt (cd : List IndustryAvgRow) (name : String) (y : ℤ) : Option ℚ :=
  (((cd.filter (fun r => r.industry_name == name)).find?
    (fun r => decide (r.year = y))).map (fun r => r.avg_index)).join

theorem mem_dedupFirstAux {α : Type} [DecidableEq α] (l : List α) (seen : List α) (x : α) :
    x ∈ dedupFirstAux seen l ↔ x ∈ l ∧ x ∉ seen := by
  induction l generalizing seen with
  | nil => simp [dedupFirstAux]
  | cons a as ih =>
    by_cases ha : a ∈ seen
    · simp only [dedupFirstAux, if_pos ha, ih, List.mem_cons]
      constructor
      · rintro ⟨hx, hs⟩
        exact ⟨Or.inr hx, hs⟩
      · rintro ⟨hx | hx, hs⟩
        · subst hx
          exact absurd ha hs
        · exact ⟨hx, hs⟩
    · simp only [dedupFirstAux, if_neg ha, List.mem_cons, ih]
      constructor
      · rintro (rfl | ⟨hx, hns⟩)
        · exact ⟨Or.inl rfl, ha⟩
        · exact ⟨Or.inr hx, fun hseen => hns (Or.inr hseen)⟩
      · rintro ⟨hx | hx, hs⟩
        · exact Or.inl hx
        · by_cases hxa : x = a
          · exact Or.inl hxa
          · refine Or.inr ⟨hx, fun hseen => ?_⟩
            rcases hseen with h | h
            · exact hxa h
            · exact hs h

theorem nodup_dedupFirstAux {α : Type} [DecidableEq α] (l : List α) (seen : List α) :
    (dedupFirstAux seen l).Nodup := by
  induction l generalizing seen with
  | nil => simp [dedupFirstAux]
  | cons a as ih =>
    by_cases ha : a ∈ seen
    · simpa [dedupFirstAux, if_pos ha] using ih seen
    · simp only [dedupFirstAux, if_neg ha]
      refine List.Nodup.cons ?_ (ih (a :: seen))
      intro hmem
      exact ((mem_dedupFirstAux as (a :: seen) a).mp hmem).2 (List.mem_cons_self a seen)

theorem mem_dedupFirst {α : Type} [DecidableEq α] (l : List α) (x : α) :
    x ∈ dedupFirst l ↔ x ∈ l := by
  simp [dedupFirst, mem_dedupFirstAux]

theorem nodup_dedupFirst {α : Type} [DecidableEq α] (l : List α) :
    (dedupFirst l).Nodup :=
  nodup_dedupFirstAux l []

/-- C2: a raw row surviving the null-drop step (all six required cells
non-null) is dropped by the Cleaner exactly when its year fails numeric
parsing; a failed index parse does not drop the row but stores the missing
sentinel in `index_value`. -/
theorem clean_year_drops_index_keeps (c n y idx ic iname : String) :
    clean_rows [mkRaw (some c) (some n) (some y) (some idx) (some ic) (some iname)] =
      match parseNumQ y with
      | none => []
      | some yq => [⟨c, n, truncInt yq, parseNumQ idx, ic, iname⟩] := by
  cases h : parseNumQ y with
  | none =>
    simp [clean_rows, cleanRow?, mkRaw, h, dedupFirst, dedupFirstAux, List.filterMap]
  | some yq =>
    simp [clean_rows, cleanRow?, mkRaw, h, dedupFirst, dedupFirstAux, List.filterMap]

theorem clean_year_drops_index_keeps_witness :
    clean_rows [mkRaw (some "000820") (some "n") (some "2020") (some "abc") (some "J66")
        (some "金融")] =
      match parseNumQ "2020" with
      | none => []
      | some yq => [⟨"000820", "n", truncInt yq, parseNumQ "abc", "J66", "金融"⟩] :=
  clean_year_drops_index_keeps "000820" "n" "2020" "abc" "J66" "金融"

/-- C6: the cleaning stage fails exactly when a required column is missing,
and the error payload is the full list of missing required columns (all
reported together, in `required_columns` order). -/
theorem clean_schema_error_reports_all (cols : List String) (rows : List RawRow) :
    (clean cols rows = Except.error (missing_cols cols) ↔
      ∃ c ∈ required_columns, c ∉ cols) ∧
    missing_cols cols = required_columns.filter (fun c => decide (c ∉ cols)) ∧
    (∀ c ∈ required_columns, c ∉ cols → c ∈ missing_cols cols) ∧
    (missing_cols cols = [] → clean cols rows = Except.ok (clean_rows rows)) := by
  have hmem : ∀ c, c ∈ missing_cols cols ↔ c ∈ required_columns ∧ c ∉ cols := by
    intro c
    simp [missing_cols, List.mem_filter]
  have hiff : (∃ c ∈ required_columns, c ∉ cols) ↔ missing_cols cols ≠ [] := by
    constructor
    · rintro ⟨c, hc, hnc⟩ hnil
      have : c ∈ missing_cols cols := (hmem c).mpr ⟨hc, hnc⟩
      rw [hnil] at this
      exact absurd this (List.not_mem_nil c)
    · intro hne
      obtain ⟨c, hc⟩ := List.exists_mem_of_ne_nil _ hne
      obtain ⟨h1, h2⟩ := (hmem c).mp hc
      exact ⟨c, h1, h2⟩
  refine ⟨?_, rfl, fun c hc hnc => (hmem c).mpr ⟨hc, hnc⟩, fun hm => by simp [clean, hm]⟩
  rw [hiff]
  by_cases hm : missing_cols cols = []
  · simp [clean, hm]
  · simp [clean, hm]

theorem clean_schema_error_reports_all_witness :
    clean ["年份", "行业代码"] [] = Except.error (missing_cols ["年份", "行业代码"]) ∧
    missing_cols ["年份", "行业代码"] = ["股票代码", "企业名称", "数字化转型综合指数", "行业名称"] :=
  ⟨(clean_schema_error_reports_all ["年份", "行业代码"] []).1.mpr (by decide), by decide⟩

/-- C8 counterexample: a raw row whose entity-code cell is the empty string
(not null) survives the cleaning pipeline, contradicting the claim that an
empty-string value in a required field excludes the row just as a null
does. -/
theorem clean_empty_string_retained :
    clean_rows [mkRaw (some "") (some "N") (some "2020") (some "1") (some "C") (some "I")] =
      [⟨"", "N", 2020, some 1, "C", "I"⟩] := by decide

/-- C8 amended: the Cleaner drops every row in which some required field is
null (pandas `dropna`); an empty-string value is not null and does not cause
a drop. -/
theorem clean_drops_null_required (r : RawRow)
    (h : r "股票代码" = none ∨ r "企业名称" = none ∨ r "年份" = none ∨
      r "数字化转型综合指数" = none ∨ r "行业代码" = none ∨ r "行业名称" = none) :
    cleanRow? r = none ∧ ∀ rows : List RawRow, clean_rows (r :: rows) = clean_rows rows := by
  have hnone : cleanRow? r = none := by
    unfold cleanRow?
    cases h1 : r "股票代码" <;> cases h2 : r "企业名称" <;> cases h3 : r "年份" <;>
      cases h4 : r "数字化转型综合指数" <;> cases h5 : r "行业代码" <;>
      cases h6 : r "行业名称" <;> simp_all
  refine ⟨hnone, fun rows => ?_⟩
  simp [clean_rows, List.filterMap_cons, hnone]

theorem clean_drops_null_required_witness :
    cleanRow? (mkRaw none (some "N") (some "2020") (some "1") (some "C") (some "I")) = none ∧
    ∀ rows : List RawRow,
      clean_rows (mkRaw none (some "N") (some "2020") (some "1") (some "C") (some "I") :: rows) =
        clean_rows rows :=
  clean_drops_null_required _ (Or.inl (by decide))

/-- C9 counterexample: a raw row with a non-numeric index cell survives the
cleaning pipeline with `index_value` equal to the missing sentinel, so the
cleaned table does not have all six canonical fields non-null. -/
theorem clean_index_missing_in_output :
    clean_rows [mkRaw (some "c") (some "n") (some "2020") (some "abc") (some "ic") (some "in")] =
      [⟨"c", "n", 2020, none, "ic", "in"⟩] := by decide

/-- C9 amended: cleaned rows have pairwise distinct
(entity_code, entity_name, year, index_value, industry_code, industry_name)
tuples, and every cleaned row arises from a raw row with all six required
cells non-null; the five identity fields are non-null strings and the year
an integer, while `index_value` is either numeric or the missing
sentinel. -/
theorem clean_rows_nodup_and_provenance (rows : List RawRow) :
    (clean_rows rows).Nodup ∧
    ∀ cr ∈ clean_rows rows, ∃ r ∈ rows, cleanRow? r = some cr := by
  refine ⟨nodup_dedupFirst _, fun cr hcr => ?_⟩
  have hm : cr ∈ rows.filterMap cleanRow? := (mem_dedupFirst _ _).mp hcr
  exact List.mem_filterMap.mp hm

theorem clean_rows_nodup_and_provenance_witness :
    (clean_rows [mkRaw (some "c") (some "n") (some "2020") (some "1") (some "ic")
        (some "in")]).Nodup ∧
    ∀ cr ∈ clean_rows [mkRaw (some "c") (some "n") (some "2020") (some "1") (some "ic")
        (some "in")],
      ∃ r ∈ [mkRaw (some "c") (some "n") (some "2020") (some "1") (some "ic") (some "in")],
        cleanRow? r = some cr :=
  clean_rows_nodup_and_provenance _

theorem akey_aggRow (rows : List CleanRow) (k : String × String × ℤ) :
    akey (aggRow rows k) = k := by
  obtain ⟨a, b, c⟩ := k
  rfl

theorem filter_map_key_nil {K A : Type} [DecidableEq K] (g : K → A) (key : A → K)
    (hg : ∀ x, key (g x) = x) (k : K) :
    ∀ ks : List K, k ∉ ks → (ks.map g).filter (fun a => decide (key a = k)) = [] := by
  intro ks
  induction ks with
  | nil => intro _; rfl
  | cons a as ih =>
    intro hk
    have h1 : ¬ a = k := fun h => hk (h ▸ List.mem_cons_self a as)
    have h2 : k ∉ as := fun h => hk (List.mem_cons_of_mem _ h)
    simp [List.filter_cons, hg, h1, ih h2]

theorem filter_map_key_singleton {K A : Type} [DecidableEq K] (g : K → A) (key : A → K)
    (hg : ∀ x, key (g x) = x) (k : K) :
    ∀ ks : List K, ks.Nodup → k ∈ ks →
      (ks.map g).filter (fun a => decide (key a = k)) = [g k] := by
  intro ks
  induction ks with
  | nil => intro _ h; cases h
  | cons a as ih =>
    intro hnd hk
    have hna : a ∉ as := (List.nodup_cons.mp hnd).1
    have hnd2 : as.Nodup := (List.nodup_cons.mp hnd).2
    rcases List.mem_cons.mp hk with rfl | hk2
    · simp [List.filter_cons, hg]
      intro a ha h
      exact hna (h ▸ ha)
    · have h1 : ¬ a = k := fun h => hna (h ▸ hk2)
      simp [List.filter_cons, hg, h1, ih hnd2 hk2]

/-- C1: for every group key present in the cleaned table, the aggregate
table contains exactly one row for it (the filter by that key is a
singleton), and that row's `avg_index` is the arithmetic mean of the
group's non-missing index values — the missing sentinel (not `0`, and with
no failure) when the group has no usable values. -/
theorem aggregate_mean_per_key (rows : List CleanRow) (k : String × String × ℤ)
    (hk : k ∈ rows.map groupKey) :
    (aggregate rows).filter (fun a => decide (akey a = k)) = [aggRow rows k] ∧
    (aggRow rows k).avg_index =
      (if (groupVals rows k).filterMap id = [] then none
       else some (((groupVals rows k).filterMap id).sum /
         ((groupVals rows k).filterMap id).length)) ∧
    ∀ q : ℚ, (groupVals rows k).filterMap id = [] → (aggRow rows k).avg_index ≠ some q := by
  have hmem : k ∈ groupKeys rows := (mem_dedupFirst _ _).mpr hk
  refine ⟨?_, rfl, ?_⟩
  · exact filter_map_key_singleton (aggRow rows) akey (akey_aggRow rows) k
      (groupKeys rows) (nodup_dedupFirst _) hmem
  · intro q hq
    simp [aggRow, meanSkipNone, hq]

theorem aggregate_mean_per_key_witness :
    (aggregate [⟨"c1", "n1", 2020, some 1, "J1", "fin"⟩,
        ⟨"c2", "n2", 2020, none, "J1", "fin"⟩]).filter
      (fun a => decide (akey a = ("J1", "fin", 2020))) =
      [aggRow [⟨"c1", "n1", 2020, some 1, "J1", "fin"⟩,
        ⟨"c2", "n2", 2020, none, "J1", "fin"⟩] ("J1", "fin", 2020)] :=
  (aggregate_mean_per_key _ ("J1", "fin", 2020) (by decide)).1

theorem find?_key_filter (series : List (ℤ × ℚ)) (refYears : List ℤ) (y : ℤ)
    (hy : y ∈ refYears) :
    (series.filter (fun p => decide (p.1 ∈ refYears))).find? (fun p => decide (p.1 = y)) =
      series.find? (fun p => decide (p.1 = y)) := by
  induction series with
  | nil => rfl
  | cons p ps ih =>
    by_cases hin : p.1 ∈ refYears
    · rw [List.filter_cons, if_pos (by simpa using hin)]
      by_cases hp : p.1 = y
      · rw [List.find?_cons_of_pos _ (by simpa using hp),
          List.find?_cons_of_pos _ (by simpa using hp)]
      · rw [List.find?_cons_of_neg _ (by simpa using hp),
          List.find?_cons_of_neg _ (by simpa using hp), ih]
    · rw [List.filter_cons, if_neg (by simpa using hin)]
      have hp : ¬ p.1 = y := fun h => hin (h ▸ hy)
      rw [List.find?_cons_of_neg _ (by simpa using hp), ih]

theorem align_self (series : List (ℤ × ℚ)) (hnd : (series.map Prod.fst).Nodup) :
    align series (series.map Prod.fst) = series.map (fun p => some p.2) := by
  induction series with
  | nil => rfl
  | cons p ps ih =>
    have hcons : (p.1 :: ps.map Prod.fst).Nodup := by simpa using hnd
    obtain ⟨hnp, hnd2⟩ := List.nodup_cons.mp hcons
    simp only [List.map_cons, align]
    congr 1
    · rw [List.find?_cons_of_pos _ (by simp)]
      rfl
    · have hcongr : ∀ y ∈ ps.map Prod.fst,
          ((p :: ps).find? (fun q => decide (q.1 = y))).map (fun q => q.2) =
            (ps.find? (fun q => decide (q.1 = y))).map (fun q => q.2) := by
        intro y hy
        have hne : ¬ p.1 = y := fun h => hnp (h ▸ hy)
        rw [List.find?_cons_of_neg _ (by simpa using hne)]
      rw [List.map_congr_left hcongr]
      simpa [align] using ih hnd2

/-- C3: the aligned output has one slot per reference year, slot `i` being
the series value at `reference_years[i]` when present and the explicit
missing marker when absent; series years outside the reference axis are
ignored without error; and a series covering the axis exactly reproduces
its values in reference order. -/
theorem align_reference_axis (series : List (ℤ × ℚ)) (refYears : List ℤ) :
    (align series refYears).length = refYears.length ∧
    (∀ i : ℕ, (align series refYears)[i]? =
      (refYears[i]?).map
        (fun y => (series.find? (fun p => decide (p.1 = y))).map (fun p => p.2))) ∧
    (∀ i : ℕ, ∀ y : ℤ, refYears[i]? = some y → y ∉ series.map Prod.fst →
      (align series refYears)[i]? = some none) ∧
    align (series.filter (fun p => decide (p.1 ∈ refYears))) refYears =
      align series refYears ∧
    (series.map Prod.fst = refYears → refYears.Nodup →
      align series refYears = series.map (fun p => some p.2)) := by
  refine ⟨by simp [align], ?_, ?_, ?_, ?_⟩
  · intro i
    simp only [align]
    exact List.getElem?_map _ _ _
  · intro i y hy hmem
    have hfind : series.find? (fun p => decide (p.1 = y)) = none := by
      apply List.find?_eq_none.mpr
      intro p hp
      simp only [decide_eq_true_eq]
      intro h
      exact hmem (List.mem_map.mpr ⟨p, hp, h⟩)
    simp [align, List.getElem?_map, hy, hfind]
  · unfold align
    apply List.map_congr_left
    intro y hy
    rw [find?_key_filter series refYears y hy]
  · intro heq hnd
    subst heq
    exact align_self series hnd

theorem align_reference_axis_witness :
    align [(2019, (1 : ℚ)), (2021, 3)] [2019, 2021] =
      [(2019, (1 : ℚ)), (2021, 3)].map (fun p => some p.2) :=
  (align_reference_axis [(2019, (1 : ℚ)), (2021, 3)] [2019, 2021]).2.2.2.2
    (by decide) (by decide)

/-- C10: the multi-industry comparison keeps exactly the aggregate rows
whose industry name is among the selected names — the codes extracted from
the selection are ignored, so two selections with the same names and
different codes give the same comparison data, and a row is included as
soon as its name matches even when its (code, name) pair was never
selected. -/
theorem compare_selects_by_name_only (tbl : List IndustryAvgRow)
    (sel sel2 : List (String × String)) (r : IndustryAvgRow) :
    (r ∈ compareData tbl sel ↔ r ∈ tbl ∧ r.industry_name ∈ sel.map Prod.fst) ∧
    (sel.map Prod.fst = sel2.map Prod.fst → compareData tbl sel = compareData tbl sel2) := by
  constructor
  · simp [compareData, compareRows, List.mem_filter]
  · intro h
    simp [compareData, compareRows, h]

theorem compare_selects_by_name_only_witness :
    (⟨"B", "X", 2021, some 2⟩ : IndustryAvgRow) ∈
      compareData [⟨"A", "X", 2020, some 1⟩, ⟨"B", "X", 2021, some 2⟩] [("X", "A")] :=
  ((compare_selects_by_name_only [⟨"A", "X", 2020, some 1⟩, ⟨"B", "X", 2021, some 2⟩]
    [("X", "A")] [("X", "A")] ⟨"B", "X", 2021, some 2⟩).1).mpr (by decide)

theorem insertSorted_perm {α : Type} (key : α → String × ℤ) (x : α) (l : List α) :
    List.Perm (insertSorted key x l) (x :: l) := by
  induction l with
  | nil => exact List.Perm.refl _
  | cons y ys ih =>
    unfold insertSorted
    by_cases h : sortKeyLt (key y) (key x) = true
    · rw [if_pos h]
      exact (List.Perm.cons y ih).trans (List.Perm.swap x y ys)
    · rw [if_neg h]

theorem sortByKey_perm {α : Type} (key : α → String × ℤ) (l : List α) :
    List.Perm (sortByKey key l) l := by
  induction l with
  | nil => exact List.Perm.refl _
  | cons x xs ih =>
    exact (insertSorted_perm key x (sortByKey key xs)).trans (List.Perm.cons x ih)

/-- C5: OR semantics of the Matcher, for the enterprise and the industry
query alike: a row is a candidate iff the code query is non-empty and the
code field contains it case-insensitively, or the name query is non-empty
and the name field contains it case-insensitively; equivalently the match
for (A, B) is, as a set, the union of the matches for (A, "") and
("", B). -/
theorem match_or_semantics (cq nq : String) :
    (∀ (tbl : List CleanRow) (r : CleanRow),
      (r ∈ enterpriseQuery tbl cq nq ↔
        r ∈ tbl ∧ ((cq ≠ "" ∧ containsCI r.entity_code cq = true) ∨
          (nq ≠ "" ∧ containsCI r.entity_name nq = true))) ∧
      (r ∈ enterpriseQuery tbl cq nq ↔
        r ∈ enterpriseQuery tbl cq "" ∨ r ∈ enterpriseQuery tbl "" nq)) ∧
    (∀ (tbl : List IndustryAvgRow) (a : IndustryAvgRow),
      (a ∈ industryQuery tbl cq nq ↔
        a ∈ tbl ∧ ((cq ≠ "" ∧ containsCI a.industry_code cq = true) ∨
          (nq ≠ "" ∧ containsCI a.industry_name nq = true))) ∧
      (a ∈ industryQuery tbl cq nq ↔
        a ∈ industryQuery tbl cq "" ∨ a ∈ industryQuery tbl "" nq)) := by
  have hent : ∀ (tbl : List CleanRow) (q1 q2 : String) (r : CleanRow),
      r ∈ enterpriseQuery tbl q1 q2 ↔
        r ∈ tbl ∧ ((q1 ≠ "" ∧ containsCI r.entity_code q1 = true) ∨
          (q2 ≠ "" ∧ containsCI r.entity_name q2 = true)) := by
    intro tbl q1 q2 r
    rw [enterpriseQuery, (sortByKey_perm entSortKey _).mem_iff, List.mem_filter]
    simp [entMatch, Bool.or_eq_true, Bool.and_eq_true, decide_eq_true_eq]
  have hind : ∀ (tbl : List IndustryAvgRow) (q1 q2 : String) (a : IndustryAvgRow),
      a ∈ industryQuery tbl q1 q2 ↔
        a ∈ tbl ∧ ((q1 ≠ "" ∧ containsCI a.industry_code q1 = true) ∨
          (q2 ≠ "" ∧ containsCI a.industry_name q2 = true)) := by
    intro tbl q1 q2 a
    rw [industryQuery, (sortByKey_perm indSortKey _).mem_iff, List.mem_filter]
    simp [indMatch, Bool.or_eq_true, Bool.and_eq_true, decide_eq_true_eq]
  constructor
  · intro tbl r
    refine ⟨hent tbl cq nq r, ?_⟩
    rw [hent tbl cq nq r, hent tbl cq "" r, hent tbl "" nq r]
    simp only [ne_eq, not_true, false_and, or_false, false_or]
    tauto
  · intro tbl a
    refine ⟨hind tbl cq nq a, ?_⟩
    rw [hind tbl cq nq a, hind tbl cq "" a, hind tbl "" nq a]
    simp only [ne_eq, not_true, false_and, or_false, false_or]
    tauto

theorem match_or_semantics_witness :
    (⟨"000820", "a", 2020, some 1, "i", "I"⟩ : CleanRow) ∈
      enterpriseQuery [⟨"000820", "a", 2020, some 1, "i", "I"⟩,
        ⟨"600000", "b", 2020, some 2, "i", "I"⟩] "00" "" :=
  ((match_or_semantics "00" "").1 [⟨"000820", "a", 2020, some 1, "i", "I"⟩,
    ⟨"600000", "b", 2020, some 2, "i", "I"⟩] ⟨"000820", "a", 2020, some 1, "i", "I"⟩).1.mpr
    (by decide)

theorem lexLtChars_irrefl : ∀ a : List Char, lexLtChars a a = false := by
  intro a
  induction a with
  | nil => rfl
  | cons x xs ih => simp [lexLtChars, ih]

theorem sortKeyLt_irrefl (a : String × ℤ) : sortKeyLt a a = false := by
  simp [sortKeyLt, lexLtChars_irrefl]

theorem lexLtChars_trans : ∀ a b c : List Char,
    lexLtChars a b = true → lexLtChars b c = true → lexLtChars a c = true := by
  intro a
  induction a with
  | nil =>
    intro b c hab hbc
    cases b with
    | nil => simp [lexLtChars] at hab
    | cons y ys =>
      cases c with
      | nil => simp [lexLtChars] at hbc
      | cons z zs => simp [lexLtChars]
  | cons x xs ih =>
    intro b c hab hbc
    cases b with
    | nil => simp [lexLtChars] at hab
    | cons y ys =>
      cases c with
      | nil => simp [lexLtChars] at hbc
      | cons z zs =>
        simp only [lexLtChars, Bool.or_eq_true, Bool.and_eq_true, decide_eq_true_eq,
          beq_iff_eq] at hab hbc ⊢
        rcases hab with h1 | ⟨he1, h1⟩
        · rcases hbc with h2 | ⟨he2, h2⟩
          · exact Or.inl (lt_trans h1 h2)
          · exact Or.inl (he2 ▸ h1)
        · subst he1
          rcases hbc with h2 | ⟨he2, h2⟩
          · exact Or.inl h2
          · exact Or.inr ⟨he2, ih ys zs h1 h2⟩

theorem lexLtChars_connex : ∀ a b : List Char,
    lexLtChars a b = false → lexLtChars b a = false → a = b := by
  intro a
  induction a with
  | nil =>
    intro b hab _
    cases b with
    | nil => rfl
    | cons y ys => simp [lexLtChars] at hab
  | cons x xs ih =>
    intro b hab hba
    cases b with
    | nil => simp [lexLtChars] at hba
    | cons y ys =>
      rcases lt_trichotomy x y with h | h | h
      · exfalso
        have ht : lexLtChars (x :: xs) (y :: ys) = true := by simp [lexLtChars, h]
        rw [ht] at hab
        simp at hab
      · subst h
        have h1 : lexLtChars xs ys = false := by simpa [lexLtChars] using hab
        have h2 : lexLtChars ys xs = false := by simpa [lexLtChars] using hba
        rw [ih ys h1 h2]
      · exfalso
        have ht : lexLtChars (y :: ys) (x :: xs) = true := by simp [lexLtChars, h]
        rw [ht] at hba
        simp at hba

theorem sortKeyLt_trans (a b c : String × ℤ) (h1 : sortKeyLt a b = true)
    (h2 : sortKeyLt b c = true) : sortKeyLt a c = true := by
  simp only [sortKeyLt, Bool.or_eq_true, Bool.and_eq_true, decide_eq_true_eq,
    beq_iff_eq] at h1 h2 ⊢
  rcases h1 with h1 | ⟨he1, h1⟩
  · rcases h2 with h2 | ⟨he2, h2⟩
    · exact Or.inl (lexLtChars_trans _ _ _ h1 h2)
    · refine Or.inl ?_
      rw [← he2]
      exact h1
  · rcases h2 with h2 | ⟨he2, h2⟩
    · refine Or.inl ?_
      rw [he1]
      exact h2
    · exact Or.inr ⟨he1.trans he2, lt_trans h1 h2⟩

theorem sortKeyLt_connex (a b : String × ℤ) (h1 : sortKeyLt a b = false)
    (h2 : sortKeyLt b a = false) : a = b := by
  have hl1 : lexLtChars a.1.data b.1.data = false := by
    cases hx : lexLtChars a.1.data b.1.data
    · rfl
    · exfalso
      rw [sortKeyLt, hx] at h1
      simp at h1
  have hl2 : lexLtChars b.1.data a.1.data = false := by
    cases hx : lexLtChars b.1.data a.1.data
    · rfl
    · exfalso
      rw [sortKeyLt, hx] at h2
      simp at h2
  have hstr : a.1 = b.1 := String.ext (lexLtChars_connex _ _ hl1 hl2)
  have hint1 : ¬ a.2 < b.2 := by
    intro hlt
    rw [sortKeyLt, hl1, hstr] at h1
    simp [hlt] at h1
  have hint2 : ¬ b.2 < a.2 := by
    intro hlt
    rw [sortKeyLt, hl2, hstr] at h2
    simp [hlt] at h2
  have hint : a.2 = b.2 := le_antisymm (not_lt.mp hint2) (not_lt.mp hint1)
  exact Prod.ext hstr hint

theorem insertSorted_pairwise {α : Type} (key : α → String × ℤ) (x : α) (l : List α)
    (hl : l.Pairwise (fun r s => sortKeyLt (key s) (key r) = false)) :
    (insertSorted key x l).Pairwise (fun r s => sortKeyLt (key s) (key r) = false) := by
  induction l with
  | nil => simp [insertSorted]
  | cons y ys ih =>
    obtain ⟨hy, hys⟩ := List.pairwise_cons.mp hl
    unfold insertSorted
    by_cases h : sortKeyLt (key y) (key x) = true
    · rw [if_pos h]
      refine List.pairwise_cons.mpr ⟨?_, ih hys⟩
      intro z hz
      have hz2 := (insertSorted_perm key x ys).mem_iff.mp hz
      rcases List.mem_cons.mp hz2 with rfl | hz3
      · cases hc : sortKeyLt (key z) (key y)
        · rfl
        · exfalso
          have hyy := sortKeyLt_trans _ _ _ h hc
          rw [sortKeyLt_irrefl] at hyy
          simp at hyy
      · exact hy z hz3
    · rw [if_neg h]
      refine List.pairwise_cons.mpr ⟨?_, hl⟩
      intro z hz
      rcases List.mem_cons.mp hz with rfl | hz3
      · simpa using h
      · cases hc : sortKeyLt (key z) (key x)
        · rfl
        · exfalso
          by_cases hyz : sortKeyLt (key y) (key z) = true
          · exact h (sortKeyLt_trans _ _ _ hyz hc)
          · have hzyf : sortKeyLt (key z) (key y) = false := hy z hz3
            have hyzf : sortKeyLt (key y) (key z) = false := by simpa using hyz
            have hkey : key z = key y := sortKeyLt_connex _ _ hzyf hyzf
            rw [hkey] at hc
            exact h hc

theorem sortByKey_pairwise {α : Type} (key : α → String × ℤ) (l : List α) :
    (sortByKey key l).Pairwise (fun r s => sortKeyLt (key s) (key r) = false) := by
  induction l with
  | nil => simp [sortByKey]
  | cons x xs ih => exact insertSorted_pairwise key x (sortByKey key xs) ih

theorem filter_insertSorted_of_eq {α : Type} (key : α → String × ℤ) (k : String × ℤ)
    (x : α) (hx : key x = k) (l : List α) :
    (insertSorted key x l).filter (fun r => decide (key r = k)) =
      x :: l.filter (fun r => decide (key r = k)) := by
  induction l with
  | nil => simp [insertSorted, List.filter_cons, hx]
  | cons y ys ih =>
    unfold insertSorted
    by_cases h : sortKeyLt (key y) (key x) = true
    · rw [if_pos h]
      have hky : ¬ key y = k := by
        intro hk
        rw [hx] at h
        rw [hk] at h
        rw [sortKeyLt_irrefl] at h
        simp at h
      rw [List.filter_cons, if_neg (by simpa using hky), ih,
        List.filter_cons, if_neg (by simpa using hky)]
    · rw [if_neg h, List.filter_cons, if_pos (by simpa using hx)]

theorem filter_insertSorted_of_ne {α : Type} (key : α → String × ℤ) (k : String × ℤ)
    (x : α) (hx : ¬ key x = k) (l : List α) :
    (insertSorted key x l).filter (fun r => decide (key r = k)) =
      l.filter (fun r => decide (key r = k)) := by
  induction l with
  | nil => simp [insertSorted, List.filter_cons, hx]
  | cons y ys ih =>
    unfold insertSorted
    by_cases h : sortKeyLt (key y) (key x) = true
    · rw [if_pos h, List.filter_cons, List.filter_cons]
      by_cases hy : key y = k
      · rw [if_pos (by simpa using hy), if_pos (by simpa using hy), ih]
      · rw [if_neg (by simpa using hy), if_neg (by simpa using hy), ih]
    · rw [if_neg h, List.filter_cons, if_neg (by simpa using hx)]

theorem filter_sortByKey {α : Type} (key : α → String × ℤ) (k : String × ℤ) (l : List α) :
    (sortByKey key l).filter (fun r => decide (key r = k)) =
      l.filter (fun r => decide (key r = k)) := by
  induction l with
  | nil => rfl
  | cons x xs ih =>
    unfold sortByKey
    by_cases hx : key x = k
    · rw [filter_insertSorted_of_eq key k x hx, ih, List.filter_cons,
        if_pos (by simpa using hx)]
    · rw [filter_insertSorted_of_ne key k x hx, ih, List.filter_cons,
        if_neg (by simpa using hx)]

/-- C7 counterexample: two matching rows share (name, year) = ("x", 2020)
with entity codes "B" then "A" in input order; the query returns them with
"B" still first, so equal-name-and-year ties are not broken by code
ascending as the claim states. -/
theorem match_tie_not_broken_by_code :
    (enterpriseQuery [⟨"B", "x", 2020, some 1, "i", "I"⟩, ⟨"A", "x", 2020, some 2, "i", "I"⟩]
        "" "x").map (fun r => r.entity_code) = ["B", "A"] := by decide

/-- C7 amended: both matchers return the matching rows sorted by
(name, year) ascending, as a permutation of the filtered rows; the sort is
stable — rows with an equal (name, year) key keep their relative input
order (no additional tie-break by code), which is what makes the result
order deterministic given the input order. -/
theorem match_sorted_stable (tbl : List CleanRow) (itbl : List IndustryAvgRow)
    (cq nq : String) :
    List.Perm (enterpriseQuery tbl cq nq) (tbl.filter (entMatch cq nq)) ∧
    (enterpriseQuery tbl cq nq).Pairwise
      (fun r s => sortKeyLt (entSortKey s) (entSortKey r) = false) ∧
    (∀ k : String × ℤ,
      (enterpriseQuery tbl cq nq).filter (fun r => decide (entSortKey r = k)) =
        (tbl.filter (entMatch cq nq)).filter (fun r => decide (entSortKey r = k))) ∧
    List.Perm (industryQuery itbl cq nq) (itbl.filter (indMatch cq nq)) ∧
    (industryQuery itbl cq nq).Pairwise
      (fun r s => sortKeyLt (indSortKey s) (indSortKey r) = false) ∧
    ∀ k : String × ℤ,
      (industryQuery itbl cq nq).filter (fun r => decide (indSortKey r = k)) =
        (itbl.filter (indMatch cq nq)).filter (fun r => decide (indSortKey r = k)) :=
  ⟨sortByKey_perm entSortKey _, sortByKey_pairwise entSortKey _,
    fun k => filter_sortByKey entSortKey k _,
    sortByKey_perm indSortKey _, sortByKey_pairwise indSortKey _,
    fun k => filter_sortByKey indSortKey k _⟩

theorem match_sorted_stable_witness :
    List.Perm (enterpriseQuery [⟨"c", "n", 2020, some 1, "i", "I"⟩] "" "n")
      ([⟨"c", "n", 2020, some 1, "i", "I"⟩].filter (entMatch "" "n")) :=
  (match_sorted_stable [⟨"c", "n", 2020, some 1, "i", "I"⟩] [] "" "n").1

theorem meanSkipNone_congr (vs1 vs2 : List (Option ℚ))
    (h : List.Perm (vs1.filterMap id) (vs2.filterMap id)) :
    meanSkipNone vs1 = meanSkipNone vs2 := by
  unfold meanSkipNone
  by_cases h1 : vs1.filterMap id = []
  · have h2 : vs2.filterMap id = [] := by
      have hl := h.length_eq
      rw [h1] at hl
      exact List.length_eq_zero.mp hl.symm
    rw [if_pos h1, if_pos h2]
  · have h2 : ¬ vs2.filterMap id = [] := by
      intro h2
      apply h1
      have hl := h.length_eq
      rw [h2] at hl
      exact List.length_eq_zero.mp hl
    rw [if_neg h1, if_neg h2, h.sum_eq, h.length_eq]

theorem find?_eq_head?_filter {α : Type} (l : List α) (p : α → Bool) :
    l.find? p = (l.filter p).head? := by
  induction l with
  | nil => rfl
  | cons a as ih =>
    cases h : p a
    · rw [List.find?_cons_of_neg _ (by simp [h]), List.filter_cons, ih]
      simp [h]
    · rw [List.find?_cons_of_pos _ h, List.filter_cons]
      simp [h]

theorem find?_self_of_mem {α : Type} [DecidableEq α] (y : α) (l : List α) (hy : y ∈ l) :
    l.find? (fun a => decide (a = y)) = some y := by
  induction l with
  | nil => cases hy
  | cons a as ih =>
    by_cases h : a = y
    · subst h
      rw [List.find?_cons_of_pos _ (by simp)]
    · rcases List.mem_cons.mp hy with rfl | hy2
      · exact absurd rfl h
      · rw [List.find?_cons_of_neg _ (by simp [h]), ih hy2]

theorem flatMap_congr {α β : Type} (l : List α) (f g : α → List β)
    (h : ∀ a ∈ l, f a = g a) : l.flatMap f = l.flatMap g := by
  induction l with
  | nil => rfl
  | cons a as ih =>
    rw [List.flatMap_cons, List.flatMap_cons, h a (List.mem_cons_self a as),
      ih (fun b hb => h b (List.mem_cons_of_mem _ hb))]

theorem filterMap_map_flatMap {α β γ : Type} (keys : List α) (f : α → List β)
    (g : β → Option γ) :
    (keys.flatMap f).filterMap g = keys.flatMap (fun k => (f k).filterMap g) := by
  induction keys with
  | nil => rfl
  | cons a as ih =>
    rw [List.flatMap_cons, List.flatMap_cons, List.filterMap_append, ih]

theorem perm_flatMap_filter_key {A K : Type} [DecidableEq K] (f : A → K) :
    ∀ keys : List K, keys.Nodup → ∀ l : List A, (∀ a ∈ l, f a ∈ keys) →
      List.Perm l (keys.flatMap (fun k => l.filter (fun a => decide (f a = k)))) := by
  intro keys
  induction keys with
  | nil =>
    intro _ l hl
    cases l with
    | nil => exact List.Perm.refl _
    | cons a as => exact absurd (hl a (List.mem_cons_self a as)) (List.not_mem_nil _)
  | cons k ks ih =>
    intro hnd l hl
    obtain ⟨hk, hnd2⟩ := List.nodup_cons.mp hnd
    have hsplit : List.Perm l
        (l.filter (fun a => decide (f a = k)) ++
          l.filter (fun a => !(decide (f a = k)))) :=
      (List.filter_append_perm _ l).symm
    have hrest : ∀ a ∈ l.filter (fun a => !(decide (f a = k))), f a ∈ ks := by
      intro a ha
      have hmem := List.mem_filter.mp ha
      have hne : ¬ f a = k := by simpa using hmem.2
      rcases List.mem_cons.mp (hl a hmem.1) with h | h
      · exact absurd h hne
      · exact h
    have hih := ih hnd2 (l.filter (fun a => !(decide (f a = k)))) hrest
    have hpointwise : ∀ k2 ∈ ks,
        (l.filter (fun a => !(decide (f a = k)))).filter (fun a => decide (f a = k2)) =
          l.filter (fun a => decide (f a = k2)) := by
      intro k2 hk2
      rw [List.filter_filter]
      apply List.filter_congr
      intro a _
      by_cases h : f a = k2
      · have hne : ¬ k2 = k := fun he => hk (he ▸ hk2)
        simp [h, hne]
      · simp [h]
    rw [List.flatMap_cons]
    refine hsplit.trans ?_
    refine (hih.append_left _).trans ?_
    rw [flatMap_congr ks _ _ hpointwise]

theorem filterMap_avg_of_short (B : List IndustryAvgRow) (hB : B.length ≤ 1) :
    B.filterMap (fun r => r.avg_index) =
      ((B.head?.map (fun r => r.avg_index)).join).toList := by
  cases B with
  | nil => rfl
  | cons r rest =>
    cases rest with
    | nil =>
      cases hv : r.avg_index
      · simp [List.filterMap_cons, hv]
      · simp [List.filterMap_cons, hv]
    | cons r2 rest2 =>
      exfalso
      simp [List.length_cons] at hB

theorem str_beq_eq_decide (s t : String) : (s == t) = decide (s = t) := by
  by_cases h : s = t
  · simp [h]
  · simp [h]

theorem alignedAt_eq_head (cd : List IndustryAvgRow) (n : String) (y : ℤ) :
    alignedAt cd n y =
      ((cd.filter (fun r => decide (r.industry_name = n) &&
        decide (r.year = y))).head?.map (fun r => r.avg_index)).join := by
  unfold alignedAt
  rw [find?_eq_head?_filter, List.filter_filter]
  have hpred : ∀ r ∈ cd,
      (decide (r.year = y) && (r.industry_name == n)) =
        (decide (r.industry_name = n) && decide (r.year = y)) := by
    intro r _
    rw [str_beq_eq_decide]
    exact Bool.and_comm _ _
  rw [List.filter_congr hpred]

theorem overall_aligned_core (cd : List IndustryAvgRow) (names : List String)
    (hnd : names.Nodup) (hsub : ∀ r ∈ cd, r.industry_name ∈ names)
    (huniq : ∀ (n : String) (y : ℤ),
      (cd.filter (fun r => decide (r.industry_name = n) && decide (r.year = y))).length ≤ 1) :
    (∀ n : String, indAligned cd n = (allYears cd).map (alignedAt cd n)) ∧
    overall_avg_aligned cd =
      (allYears cd).map
        (fun y => meanSkipNone (names.map (fun n => alignedAt cd n y))) := by
  constructor
  · intro n
    unfold indAligned reindexOpt indSeries
    apply List.map_congr_left
    intro y _
    rw [List.find?_map, Option.map_map]
    rfl
  · unfold overall_avg_aligned reindexOpt
    apply List.map_congr_left
    intro y hy
    have hfind : (overall_avg cd).find? (fun p => decide (p.1 = y)) =
        some (y, meanSkipNone ((rowsAtYear cd y).map (fun r => r.avg_index))) := by
      unfold overall_avg
      rw [List.find?_map]
      rw [show ((fun p : ℤ × Option ℚ => decide (p.1 = y)) ∘
          (fun y2 => (y2, meanSkipNone ((rowsAtYear cd y2).map (fun r => r.avg_index))))) =
          (fun y2 : ℤ => decide (y2 = y)) from rfl]
      rw [find?_self_of_mem y (allYears cd) hy]
      rfl
    rw [hfind]
    show meanSkipNone ((rowsAtYear cd y).map (fun r => r.avg_index)) =
      meanSkipNone (names.map (fun n => alignedAt cd n y))
    have hL : ((rowsAtYear cd y).map (fun r => r.avg_index)).filterMap id =
        (rowsAtYear cd y).filterMap (fun r => r.avg_index) := by
      rw [List.filterMap_map]
      rfl
    have hR : ((names.map (fun n => alignedAt cd n y)).filterMap id) =
        names.filterMap (fun n => alignedAt cd n y) := by
      rw [List.filterMap_map]
      rfl
    have hperm := perm_flatMap_filter_key (fun r : IndustryAvgRow => r.industry_name)
      names hnd (rowsAtYear cd y) (fun r hr => hsub r (List.mem_filter.mp hr).1)
    have hpt : ∀ n ∈ names,
        ((rowsAtYear cd y).filter (fun r => decide (r.industry_name = n))).filterMap
          (fun r => r.avg_index) = (alignedAt cd n y).toList := by
      intro n _
      have hB : (rowsAtYear cd y).filter (fun r => decide (r.industry_name = n)) =
          cd.filter (fun r => decide (r.industry_name = n) && decide (r.year = y)) := by
        unfold rowsAtYear
        rw [List.filter_filter]
      rw [hB, filterMap_avg_of_short _ (huniq n y), alignedAt_eq_head]
    have hR2 : names.filterMap (fun n => alignedAt cd n y) =
        names.flatMap (fun n => ((rowsAtYear cd y).filter
          (fun r => decide (r.industry_name = n))).filterMap (fun r => r.avg_index)) := by
      rw [List.filterMap_eq_flatMap_toList]
      exact (flatMap_congr names _ _ hpt).symm
    apply meanSkipNone_congr
    rw [hL, hR, hR2, ← filterMap_map_flatMap]
    exact hperm.filterMap _

theorem length_filter_le_one_of_nodup_keys (cd : List IndustryAvgRow)
    (h : (cd.map (fun r => (r.industry_name, r.year))).Nodup) (n : String) (y : ℤ) :
    (cd.filter (fun r => decide (r.industry_name = n) && decide (r.year = y))).length ≤ 1 := by
  induction cd with
  | nil => simp
  | cons r rest ih =>
    simp only [List.map_cons, List.nodup_cons] at h
    obtain ⟨hr, hrest⟩ := h
    rw [List.filter_cons]
    by_cases hp : (decide (r.industry_name = n) && decide (r.year = y)) = true
    · rw [if_pos hp]
      simp only [Bool.and_eq_true, decide_eq_true_eq] at hp
      have hnil : rest.filter
          (fun r2 => decide (r2.industry_name = n) && decide (r2.year = y)) = [] := by
        rw [List.filter_eq_nil_iff]
        intro r2 h2
        simp only [Bool.and_eq_true, decide_eq_true_eq, not_and]
        intro he2 hy2
        apply hr
        refine List.mem_map.mpr ⟨r2, h2, ?_⟩
        rw [he2, hy2, hp.1, hp.2]
      rw [hnil]
      simp
    · rw [if_neg hp]
      exact ih hrest

/-- C4: over the multi-industry comparison data, the aligned composite
(`overall_avg` reindexed to the shared year axis) equals, slot by slot, the
mean of the non-missing aligned per-industry values at that reference year
(missing entries ignored, all-missing giving missing); each per-industry
aligned series is itself the pointwise alignment over the same shared axis,
so the composite's year axis matches the individual series exactly.  Holds
whenever the selected names are distinct and the comparison data has at
most one row per (name, year) — the well-formedness the per-industry
`reindex` needs. -/
theorem overall_mean_uses_aligned (tbl : List IndustryAvgRow) (names : List String)
    (hnd : names.Nodup)
    (huniq : ∀ (n : String) (y : ℤ),
      ((compareRows tbl names).filter
        (fun r => decide (r.industry_name = n) && decide (r.year = y))).length ≤ 1) :
    (∀ n : String, indAligned (compareRows tbl names) n =
      (allYears (compareRows tbl names)).map (alignedAt (compareRows tbl names) n)) ∧
    overall_avg_aligned (compareRows tbl names) =
      (allYears (compareRows tbl names)).map
        (fun y => meanSkipNone (names.map
          (fun n => alignedAt (compareRows tbl names) n y))) ∧
    ∀ y : ℤ,
      (names.map (fun n => alignedAt (compareRows tbl names) n y)).filterMap id = [] →
        meanSkipNone (names.map (fun n => alignedAt (compareRows tbl names) n y)) = none := by
  have hsub : ∀ r ∈ compareRows tbl names, r.industry_name ∈ names := by
    intro r hr
    have hm := List.mem_filter.mp hr
    simpa using hm.2
  obtain ⟨h1, h2⟩ := overall_aligned_core (compareRows tbl names) names hnd hsub huniq
  refine ⟨h1, h2, fun y hy => ?_⟩
  simp [meanSkipNone, hy]

theorem overall_mean_uses_aligned_witness :
    overall_avg_aligned (compareRows [⟨"J1", "A", 2020, some 1⟩, ⟨"J2", "B", 2021, some 2⟩]
        ["A", "B"]) =
      (allYears (compareRows [⟨"J1", "A", 2020, some 1⟩, ⟨"J2", "B", 2021, some 2⟩]
        ["A", "B"])).map
        (fun y => meanSkipNone (["A", "B"].map
          (fun n => alignedAt (compareRows [⟨"J1", "A", 2020, some 1⟩,
            ⟨"J2", "B", 2021, some 2⟩] ["A", "B"]) n y))) :=
  (overall_mean_uses_aligned [⟨"J1", "A", 2020, some 1⟩, ⟨"J2", "B", 2021, some 2⟩]
    ["A", "B"] (by decide)
    (length_filter_le_one_of_nodup_keys _ (by decide))).2.1

end App
